import Mathlib

/-
Verification of the MBTA route-connectivity analysis (mbta_api.py).

The stops_routes DataFrame has one row per route; each row carries the
route display name (column attributes.long_name) and the list of stop
records (column stops), every stop record holding an id and a display
name (attributes.name).  We embed rows as `Route` values and the table
as a list of rows.

Python set iteration order (used by list(set(a) & set(b))[0]) is
unspecified: it depends on the process hash seed.  We model it by an
explicit parameter `pick : List String → List String → String` required
only to return a common element of the two lists (`Admissible`).  Any
concrete Python run corresponds to one admissible pick.

The while loop of connect_route is embedded with explicit fuel; the
theorems below prove that some finite fuel always suffices and that the
result is independent of the fuel beyond that point, which is the formal
counterpart of termination of the source loop.
-/

namespace MbtaRoutes

structure Stop where
  id : String
  name : String
deriving DecidableEq

structure Route where
  long_name : String
  stops : List Stop
deriving DecidableEq

abbrev StopsRoutes := List Route

/-- MBTA_Analysis.get_stop_route: for every row and every stop record on the
row whose display name equals the queried name, append the row's long name. -/
def get_stop_route : StopsRoutes → String → List String
  | [], _ => []
  | route :: rest, p =>
      (route.stops.filter (fun s => decide (s.name = p))).map (fun _ => route.long_name)
        ++ get_stop_route rest p

/-- Whether a route row has a stop with the given display name. -/
def containsName (r : Route) (n : String) : Bool :=
  r.stops.any (fun s => decide (s.name = n))

/-- stops_routes.explode('stops')['stops']: all stop records of all rows in
row order. -/
def explodedStops : StopsRoutes → List Stop
  | [] => []
  | r :: rest => r.stops ++ explodedStops rest

/-- Occurrence count of a stop record across the exploded column
(value_counts counts). -/
def countStop (t : StopsRoutes) (s : Stop) : Nat := (explodedStops t).count s

def dedupKeysAux : List Stop → List Stop → List Stop
  | [], _ => []
  | s :: rest, seen =>
      if s ∈ seen then dedupKeysAux rest seen else s :: dedupKeysAux rest (s :: seen)

/-- Distinct stop records in order of first occurrence. -/
def dedupKeys (l : List Stop) : List Stop := dedupKeysAux l []

/-- The index of value_counts: distinct stop records ordered by descending
count, ties kept in first-occurrence order.  The source then takes
(counts > 1).keys(), which is the WHOLE index (the comparison builds a
boolean series and .keys() returns its index), so no count filter happens. -/
def valueCountsKeys (t : StopsRoutes) : List Stop :=
  List.insertionSort (fun a b => countStop t b ≤ countStop t a) (dedupKeys (explodedStops t))

structure ConnRow where
  stop : String
  routes : List String
deriving DecidableEq

/-- MBTA_Analysis.get_connected_routes: one output row per key of the
(unfiltered, see valueCountsKeys) value_counts index, pairing the stop
display name with the long names of all rows whose stop list contains the
stop record. -/
def get_connected_routes (t : StopsRoutes) : List ConnRow :=
  (valueCountsKeys t).map (fun s =>
    { stop := s.name
      routes := (t.filter (fun route => decide (s ∈ route.stops))).map Route.long_name })

/-- First row attaining the maximal stop-list length
(stops_routes.loc[...str.len().idxmax()]; idxmax returns the first maximal
label, none on an empty table where pandas raises). -/
def argmaxFirst : StopsRoutes → Option Route
  | [] => none
  | r :: rest =>
    match argmaxFirst rest with
    | none => some r
    | some best => if best.stops.length ≤ r.stops.length then some r else some best

/-- First row attaining the minimal stop-list length (idxmin analogue). -/
def argminFirst : StopsRoutes → Option Route
  | [] => none
  | r :: rest =>
    match argminFirst rest with
    | none => some r
    | some best => if r.stops.length ≤ best.stops.length then some r else some best

/-- MBTA_Analysis.get_max_stops. -/
def get_max_stops (t : StopsRoutes) : Option (String × Nat) :=
  (argmaxFirst t).map (fun r => (r.long_name, r.stops.length))

/-- MBTA_Analysis.get_min_stops. -/
def get_min_stops (t : StopsRoutes) : Option (String × Nat) :=
  (argminFirst t).map (fun r => (r.long_name, r.stops.length))

/-- Truth of `set(a) & set(b)` used as a condition. -/
def interNonempty (a b : List String) : Bool := a.any (fun x => decide (x ∈ b))

/-- A function modelling list(set(a) & set(b))[0] is admissible when it
returns a common element whenever the intersection is non-empty.  Python
set iteration order is hash-seed dependent, so the code's behaviour is one
admissible pick per process. -/
def Admissible (pick : List String → List String → String) : Prop :=
  ∀ a b, interNonempty a b = true → pick a b ∈ a ∧ pick a b ∈ b

/-- One admissible order: first common element in list order. -/
def pickFirst (a b : List String) : String :=
  (a.filter (fun x => decide (x ∈ b))).headD ""

/-- Another admissible order: last common element in list order. -/
def pickLast (a b : List String) : String :=
  (a.filter (fun x => decide (x ∈ b))).reverse.headD ""

/-- Body of the for-loop over the rows of get_connected_routes inside
connect_route: when the current routes intersect the row's routes and the
row's stop is not visited, append one route of the intersection to
rail_route (unless already there) and enqueue the row's stop.  The state
is (rail_route, next_stops). -/
def processRow (pick : List String → List String → String)
    (visited current_routes : List String)
    (st : List String × List String) (row : ConnRow) : List String × List String :=
  if interNonempty current_routes row.routes = true ∧ row.stop ∉ visited then
    (if pick current_routes row.routes ∈ st.1 then st.1
     else st.1 ++ [pick current_routes row.routes],
     st.2 ++ [row.stop])
  else st

/-- visited_stops.add(current_stop): set insertion with membership
semantics. -/
def addVisited (cur : String) (visited : List String) : List String :=
  if cur ∈ visited then visited else cur :: visited

/-- The while loop of connect_route, with explicit fuel.  Returns the
rail_route result (none when fuel runs out before the loop exits) together
with the list of dequeued stops in dequeue order. -/
def connectLoop (pick : List String → List String → String) (t : StopsRoutes)
    (routes_2 : List String) :
    Nat → List String → List String → List String → Option (List String) × List String
  | 0, rail, queue, _ => if queue.isEmpty then (some rail, []) else (none, [])
  | fuel + 1, rail, queue, visited =>
    match queue with
    | [] => (some rail, [])
    | cur :: rest =>
      let visited2 := addVisited cur visited
      let current_routes := get_stop_route t cur
      if interNonempty current_routes routes_2 = true ∧
          pick current_routes routes_2 ∉ rail then
        (some (rail ++ [pick current_routes routes_2]), [cur])
      else
        let st := (get_connected_routes t).foldl
          (processRow pick visited2 current_routes) (rail, rest)
        let res := connectLoop pick t routes_2 fuel st.1 st.2 visited2
        (res.1, cur :: res.2)

/-- MBTA_Analysis.connect_route: the invalid-stop check only prints (see
invalid_stop_message), then the shared-route early return, then the search
loop seeded with stop_1. -/
def connect_route (pick : List String → List String → String) (t : StopsRoutes)
    (stop_1 stop_2 : String) (fuel : Nat) : Option (List String) × List String :=
  let routes_1 := get_stop_route t stop_1
  let routes_2 := get_stop_route t stop_2
  if interNonempty routes_1 routes_2 = true then (some [pick routes_1 routes_2], [])
  else connectLoop pick t routes_2 fuel [] [stop_1] []

/-- Condition under which connect_route prints the message
"Invalid subway stop; no corresponding route." (it does not return early). -/
def invalid_stop_message (t : StopsRoutes) (s1 s2 : String) : Bool :=
  (get_stop_route t s1).isEmpty || (get_stop_route t s2).isEmpty

/-- Stop names of the rows of get_connected_routes: the only stops the loop
can enqueue. -/
def connStopNames (t : StopsRoutes) : List String :=
  (get_connected_routes t).map ConnRow.stop

/-- Number of enqueueable stops not yet visited: first component of the
termination measure. -/
def unvisitedCount (t : StopsRoutes) (visited : List String) : Nat :=
  ((connStopNames t).filter (fun s => decide (s ∉ visited))).length

/-- A queue entry is inert when dequeuing it cannot shrink the unvisited
count: it is already visited or can never be enqueued again. -/
def staleB (t : StopsRoutes) (visited : List String) (s : String) : Bool :=
  decide (s ∈ visited) || decide (s ∉ connStopNames t)

/-- Length of the maximal inert prefix of the queue: second component of
the termination measure. -/
def stalePre (t : StopsRoutes) (visited : List String) : List String → Nat
  | [] => 0
  | x :: xs => if staleB t visited x then stalePre t visited xs + 1 else 0

/-- Transfer chains of the route graph: from route r one can reach a stop
named dest by staying on r or by transferring at a stop record shared with
another route of the table. -/
inductive RouteChain (t : StopsRoutes) (dest : String) : Route → Prop
  | base (r : Route) (hr : r ∈ t) (hd : containsName r dest = true) :
      RouteChain t dest r
  | step (r r2 : Route) (hr : r ∈ t) (hr2 : r2 ∈ t)
      (hshare : ∃ s, s ∈ r.stops ∧ s ∈ r2.stops)
      (next : RouteChain t dest r2) : RouteChain t dest r

/-- A sequence of route transfers connecting the two stop names exists in
the route/stop graph. -/
def PathExists (t : StopsRoutes) (s1 s2 : String) : Prop :=
  ∃ r, r ∈ t ∧ containsName r s1 = true ∧ RouteChain t s2 r

/-- Concrete tables used by witnesses and counterexamples. -/
def stA : Stop := ⟨"1", "a"⟩
def stB : Stop := ⟨"2", "b"⟩
def stC : Stop := ⟨"3", "c"⟩
def stD : Stop := ⟨"4", "d"⟩
def stE : Stop := ⟨"5", "e"⟩
def stX : Stop := ⟨"6", "x"⟩
def stY : Stop := ⟨"7", "y"⟩
def stP : Stop := ⟨"8", "p"⟩

/-- Two routes sharing both their stops. -/
def tShare : StopsRoutes := [⟨"A", [stX, stY]⟩, ⟨"B", [stX, stY]⟩]

/-- A single route with two single-route stops. -/
def tOne : StopsRoutes := [⟨"A", [stX, stY]⟩]

/-- One route with stops a and b. -/
def tR : StopsRoutes := [⟨"R", [stA, stB]⟩]

/-- Two routes connected through the shared stop p. -/
def tChain : StopsRoutes := [⟨"A", [stA, stP]⟩, ⟨"B", [stP, stB]⟩]

/-- Two disconnected components. -/
def tTwoComp : StopsRoutes := [⟨"R", [stA, stB, stC]⟩, ⟨"S", [stD, stE]⟩]

/-- The shape of the repository test fixture: Route 1 with two stops,
Route 2 with three stops. -/
def tFix : StopsRoutes := [⟨"Route 1", [stA, stB]⟩, ⟨"Route 2", [stA, stB, stC]⟩]

/-- One route listing two distinct stop records with the same display name. -/
def tDupName : StopsRoutes := [⟨"R", [⟨"1", "x"⟩, ⟨"2", "x"⟩]⟩]

/-- Lexicographic order on character lists (the order "sorted by name"
refers to; executable, unlike the ambient String order instance). -/
def nameLtAux : List Char → List Char → Bool
  | [], [] => false
  | [], _ :: _ => true
  | _ :: _, [] => false
  | c :: cs, d :: ds =>
      if c.toNat < d.toNat then true
      else if d.toNat < c.toNat then false
      else nameLtAux cs ds

/-- Lexicographic name order on strings. -/
def strNameLt (a b : String) : Bool := nameLtAux a.data b.data

theorem containsName_iff (r : Route) (n : String) :
    containsName r n = true ↔ ∃ s, s ∈ r.stops ∧ s.name = n := by
  simp [containsName, List.any_eq_true]

theorem mem_get_stop_route (t : StopsRoutes) (n rn : String) :
    rn ∈ get_stop_route t n ↔
      ∃ r, r ∈ t ∧ r.long_name = rn ∧ containsName r n = true := by
  induction t with
  | nil => simp [get_stop_route]
  | cons route rest ih =>
      constructor
      · intro h
        rcases List.mem_append.mp h with h1 | h2
        · rcases List.mem_map.mp h1 with ⟨s, hs, he⟩
          have hs2 := List.mem_filter.mp hs
          exact ⟨route, List.mem_cons_self _ _, he,
            (containsName_iff _ _).mpr ⟨s, hs2.1, by simpa using hs2.2⟩⟩
        · rcases ih.mp h2 with ⟨r, hr, he, hc⟩
          exact ⟨r, List.mem_cons_of_mem _ hr, he, hc⟩
      · rintro ⟨r, hr, he, hc⟩
        rcases List.mem_cons.mp hr with rfl | hr2
        · rcases (containsName_iff _ _).mp hc with ⟨s, hs, hn⟩
          exact List.mem_append.mpr (Or.inl
            (List.mem_map.mpr ⟨s, List.mem_filter.mpr ⟨hs, by simp [hn]⟩, he⟩))
        · exact List.mem_append.mpr (Or.inr (ih.mpr ⟨r, hr2, he, hc⟩))

theorem long_name_mem_get_stop_route {t : StopsRoutes} {r : Route} (hr : r ∈ t)
    {n : String} (hc : containsName r n = true) :
    r.long_name ∈ get_stop_route t n :=
  (mem_get_stop_route t n _).mpr ⟨r, hr, rfl, hc⟩

theorem get_stop_route_eq_nil (t : StopsRoutes) (n : String) :
    get_stop_route t n = [] ↔ ∀ r ∈ t, containsName r n = false := by
  rw [List.eq_nil_iff_forall_not_mem]
  constructor
  · intro h r hr
    cases hb : containsName r n
    · rfl
    · exact absurd (long_name_mem_get_stop_route hr hb) (h _)
  · intro h rn hrn
    rcases (mem_get_stop_route t n rn).mp hrn with ⟨r, hr, _, hc⟩
    rw [h r hr] at hc
    cases hc

theorem interNonempty_iff (a b : List String) :
    interNonempty a b = true ↔ ∃ x, x ∈ a ∧ x ∈ b := by
  simp [interNonempty, List.any_eq_true]

theorem pickFirst_admissible : Admissible pickFirst := by
  intro a b h
  rcases (interNonempty_iff a b).mp h with ⟨x, hxa, hxb⟩
  have hxf : x ∈ a.filter (fun y => decide (y ∈ b)) :=
    List.mem_filter.mpr ⟨hxa, by simpa using hxb⟩
  rcases hf : a.filter (fun y => decide (y ∈ b)) with _ | ⟨y, ys⟩
  · rw [hf] at hxf; cases hxf
  · have hy : y ∈ a.filter (fun y => decide (y ∈ b)) := by
      rw [hf]; exact List.mem_cons_self _ _
    have h2 := List.mem_filter.mp hy
    have hpk : pickFirst a b = y := by simp [pickFirst, hf]
    rw [hpk]
    exact ⟨h2.1, by simpa using h2.2⟩

theorem pickLast_admissible : Admissible pickLast := by
  intro a b h
  rcases (interNonempty_iff a b).mp h with ⟨x, hxa, hxb⟩
  have hxf : x ∈ (a.filter (fun y => decide (y ∈ b))).reverse :=
    List.mem_reverse.mpr (List.mem_filter.mpr ⟨hxa, by simpa using hxb⟩)
  rcases hf : (a.filter (fun y => decide (y ∈ b))).reverse with _ | ⟨y, ys⟩
  · rw [hf] at hxf; cases hxf
  · have hy : y ∈ (a.filter (fun y => decide (y ∈ b))).reverse := by
      rw [hf]; exact List.mem_cons_self _ _
    have h2 := List.mem_filter.mp (List.mem_reverse.mp hy)
    have hpk : pickLast a b = y := by simp [pickLast, hf]
    rw [hpk]
    exact ⟨h2.1, by simpa using h2.2⟩

theorem mem_dedupKeysAux :
    ∀ (l seen : List Stop) (x : Stop), x ∈ dedupKeysAux l seen ↔ x ∈ l ∧ x ∉ seen := by
  intro l
  induction l with
  | nil => simp [dedupKeysAux]
  | cons s rest ih =>
      intro seen x
      by_cases hs : s ∈ seen
      · rw [dedupKeysAux, if_pos hs, ih]
        constructor
        · rintro ⟨hx, hns⟩; exact ⟨List.mem_cons_of_mem _ hx, hns⟩
        · rintro ⟨hx, hns⟩
          rcases List.mem_cons.mp hx with rfl | h
          · exact absurd hs hns
          · exact ⟨h, hns⟩
      · rw [dedupKeysAux, if_neg hs]
        constructor
        · intro hx
          rcases List.mem_cons.mp hx with rfl | h
          · exact ⟨List.mem_cons_self _ _, hs⟩
          · rcases (ih _ _).mp h with ⟨h1, h2⟩
            exact ⟨List.mem_cons_of_mem _ h1,
              fun hc => h2 (List.mem_cons_of_mem _ hc)⟩
        · rintro ⟨hx, hns⟩
          rcases List.mem_cons.mp hx with rfl | h
          · exact List.mem_cons_self _ _
          · by_cases hxs : x = s
            · exact hxs ▸ List.mem_cons_self _ _
            · exact List.mem_cons_of_mem _
                ((ih _ _).mpr ⟨h, by simp [List.mem_cons, hxs, hns]⟩)

theorem mem_dedupKeys (l : List Stop) (x : Stop) : x ∈ dedupKeys l ↔ x ∈ l := by
  rw [dedupKeys, mem_dedupKeysAux]
  simp

theorem mem_valueCountsKeys (t : StopsRoutes) (x : Stop) :
    x ∈ valueCountsKeys t ↔ x ∈ explodedStops t := by
  rw [valueCountsKeys, (List.perm_insertionSort _ _).mem_iff, mem_dedupKeys]

theorem mem_explodedStops {t : StopsRoutes} {r : Route} (hr : r ∈ t)
    {s : Stop} (hs : s ∈ r.stops) : s ∈ explodedStops t := by
  induction t with
  | nil => cases hr
  | cons a rest ih =>
      rw [explodedStops]
      rcases List.mem_cons.mp hr with rfl | h
      · exact List.mem_append.mpr (Or.inl hs)
      · exact List.mem_append.mpr (Or.inr (ih h))

theorem connRow_of_stop {t : StopsRoutes} {w : Stop} (hw : w ∈ explodedStops t) :
    (⟨w.name, (t.filter (fun route => decide (w ∈ route.stops))).map Route.long_name⟩ :
      ConnRow) ∈ get_connected_routes t :=
  List.mem_map.mpr ⟨w, (mem_valueCountsKeys t w).mpr hw, rfl⟩

theorem long_name_mem_rowRoutes {t : StopsRoutes} {r : Route} {w : Stop}
    (hr : r ∈ t) (hs : w ∈ r.stops) :
    r.long_name ∈ (t.filter (fun route => decide (w ∈ route.stops))).map Route.long_name :=
  List.mem_map.mpr ⟨r, List.mem_filter.mpr ⟨hr, by simp [hs]⟩, rfl⟩

theorem argmaxFirst_eq_none (t : StopsRoutes) : argmaxFirst t = none ↔ t = [] := by
  cases t with
  | nil => simp [argmaxFirst]
  | cons a rest =>
      simp only [argmaxFirst]
      cases argmaxFirst rest <;> simp
      split <;> simp

theorem argminFirst_eq_none (t : StopsRoutes) : argminFirst t = none ↔ t = [] := by
  cases t with
  | nil => simp [argminFirst]
  | cons a rest =>
      simp only [argminFirst]
      cases argminFirst rest <;> simp
      split <;> simp

theorem argmaxFirst_spec :
    ∀ (t : StopsRoutes) (r : Route), argmaxFirst t = some r →
      r ∈ t ∧ ∀ q ∈ t, q.stops.length ≤ r.stops.length := by
  intro t
  induction t with
  | nil => intro r h; cases h
  | cons a rest ih =>
      intro r h
      rw [argmaxFirst] at h
      rcases hrest : argmaxFirst rest with _ | best
      · rw [hrest] at h
        injection h with h
        subst h
        have hnil : rest = [] := (argmaxFirst_eq_none rest).mp hrest
        subst hnil
        refine ⟨List.mem_cons_self _ _, ?_⟩
        intro q hq
        rcases List.mem_cons.mp hq with rfl | hq2
        · exact le_refl _
        · cases hq2
      · rw [hrest] at h
        dsimp only at h
        by_cases hc2 : best.stops.length ≤ a.stops.length
        · rw [if_pos hc2] at h
          injection h with h
          subst h
          refine ⟨List.mem_cons_self _ _, ?_⟩
          intro q hq
          rcases List.mem_cons.mp hq with rfl | hq2
          · exact le_refl _
          · exact le_trans ((ih best hrest).2 q hq2) hc2
        · rw [if_neg hc2] at h
          injection h with h
          subst h
          refine ⟨List.mem_cons_of_mem _ (ih best hrest).1, ?_⟩
          intro q hq
          rcases List.mem_cons.mp hq with rfl | hq2
          · exact le_of_not_le hc2
          · exact (ih best hrest).2 q hq2

theorem argminFirst_spec :
    ∀ (t : StopsRoutes) (r : Route), argminFirst t = some r →
      r ∈ t ∧ ∀ q ∈ t, r.stops.length ≤ q.stops.length := by
  intro t
  induction t with
  | nil => intro r h; cases h
  | cons a rest ih =>
      intro r h
      rw [argminFirst] at h
      rcases hrest : argminFirst rest with _ | best
      · rw [hrest] at h
        injection h with h
        subst h
        have hnil : rest = [] := (argminFirst_eq_none rest).mp hrest
        subst hnil
        refine ⟨List.mem_cons_self _ _, ?_⟩
        intro q hq
        rcases List.mem_cons.mp hq with rfl | hq2
        · exact le_refl _
        · cases hq2
      · rw [hrest] at h
        dsimp only at h
        by_cases hc2 : a.stops.length ≤ best.stops.length
        · rw [if_pos hc2] at h
          injection h with h
          subst h
          refine ⟨List.mem_cons_self _ _, ?_⟩
          intro q hq
          rcases List.mem_cons.mp hq with rfl | hq2
          · exact le_refl _
          · exact le_trans hc2 ((ih best hrest).2 q hq2)
        · rw [if_neg hc2] at h
          injection h with h
          subst h
          refine ⟨List.mem_cons_of_mem _ (ih best hrest).1, ?_⟩
          intro q hq
          rcases List.mem_cons.mp hq with rfl | hq2
          · exact le_of_not_le hc2
          · exact (ih best hrest).2 q hq2

theorem argmaxFirst_isSome {t : StopsRoutes} (h : t ≠ []) :
    ∃ r, argmaxFirst t = some r := by
  rcases hr : argmaxFirst t with _ | r
  · exact absurd ((argmaxFirst_eq_none t).mp hr) h
  · exact ⟨r, rfl⟩

theorem argminFirst_isSome {t : StopsRoutes} (h : t ≠ []) :
    ∃ r, argminFirst t = some r := by
  rcases hr : argminFirst t with _ | r
  · exact absurd ((argminFirst_eq_none t).mp hr) h
  · exact ⟨r, rfl⟩

theorem get_stop_route_nodup (t : StopsRoutes) (n : String)
    (hln : (t.map Route.long_name).Nodup)
    (hocc : ∀ r ∈ t, (r.stops.filter (fun s => decide (s.name = n))).length ≤ 1) :
    (get_stop_route t n).Nodup := by
  induction t with
  | nil => simp [get_stop_route]
  | cons route rest ih =>
      rw [get_stop_route]
      rw [List.map_cons] at hln
      have hln2 := List.nodup_cons.mp hln
      have htail : (get_stop_route rest n).Nodup :=
        ih hln2.2 (fun r hr => hocc r (List.mem_cons_of_mem _ hr))
      have hhead : route.long_name ∉ get_stop_route rest n := by
        intro hmem
        rcases (mem_get_stop_route rest n _).mp hmem with ⟨r, hr, he, _⟩
        exact hln2.1 (List.mem_map.mpr ⟨r, hr, he⟩)
      cases hf : route.stops.filter (fun s => decide (s.name = n)) with
      | nil => simpa [hf] using htail
      | cons s ss =>
          have hlen : (s :: ss).length ≤ 1 := by
            rw [← hf]; exact hocc route (List.mem_cons_self _ _)
          have hss : ss = [] := by
            cases ss with
            | nil => rfl
            | cons u us => simp at hlen
          subst hss
          simpa using ⟨hhead, htail⟩

/-- Claim C2 (code bug): when the origin stop is valid but the destination
stop is unknown, connect_route prints the invalid-stop message but, lacking
an early return, still runs the search and returns a NON-empty route list.
Evaluated on the table with the single route R = [a, b] and the query
connect_route a zzz: the message fires, routes 2 is empty, yet the result
is [R]. -/
theorem C2_unknown_stop_eval :
    connect_route pickFirst tR "a" "zzz" 5 = (some ["R"], ["a", "b"]) ∧
    invalid_stop_message tR "a" "zzz" = true ∧
    get_stop_route tR "zzz" = [] ∧ get_stop_route tR "a" = ["R"] :=
  ⟨rfl, rfl, rfl, rfl⟩

/-- Claim C3 (code bug): in get_connected_routes the expression
(counts greater than 1).keys() returns the whole value_counts index, so the
count filter is a no-op and stops lying on exactly one route appear in the
output.  Evaluated on a table with a single route A = [x, y]: both stops
have route count 1 yet both appear, contradicting the claimed iff (and the
function docstring, which promises only stops connecting two or more
routes). -/
theorem C3_connected_routes_eval :
    get_connected_routes tOne = [⟨"x", ["A"]⟩, ⟨"y", ["A"]⟩] ∧
    countStop tOne stX = 1 ∧ countStop tOne stY = 1 ∧
    (⟨"x", ["A"]⟩ : ConnRow) ∈ get_connected_routes tOne :=
  ⟨rfl, rfl, rfl, by decide⟩

/-- Claim C5 counterexample: the element returned for a shared-route query
is list(set inter)[0] under Python set iteration order, not the
lowest-sorted-by-name route.  With the admissible order pickLast on a table
where stops x and y lie on both routes A and B, the query returns [B]
although A is also in the intersection and A sorts strictly before B. -/
theorem C5_counterexample :
    Admissible pickLast ∧
    (connect_route pickLast tShare "x" "y" 0).1 = some ["B"] ∧
    "A" ∈ get_stop_route tShare "x" ∧ "A" ∈ get_stop_route tShare "y" ∧
    ("A" : String) ≠ "B" ∧ strNameLt "A" "B" = true :=
  ⟨pickLast_admissible, rfl, by decide, by decide, by decide, rfl⟩

/-- Claim C5 (amended): when the two stops share at least one route
(including a query of a stop against itself), connect_route returns the
single-element sequence whose element is SOME route of the non-empty
intersection of the two route sets, namely list(set inter)[0] under the
process set iteration order; which element it is depends on that order, so
it need not be the lowest-sorted-by-name one. -/
theorem C5_shared_route (pick : List String → List String → String)
    (hp : Admissible pick) (t : StopsRoutes) (s1 s2 : String)
    (hs : interNonempty (get_stop_route t s1) (get_stop_route t s2) = true)
    (fuel : Nat) :
    (connect_route pick t s1 s2 fuel).1 =
      some [pick (get_stop_route t s1) (get_stop_route t s2)] ∧
    pick (get_stop_route t s1) (get_stop_route t s2) ∈ get_stop_route t s1 ∧
    pick (get_stop_route t s1) (get_stop_route t s2) ∈ get_stop_route t s2 := by
  refine ⟨?_, (hp _ _ hs).1, (hp _ _ hs).2⟩
  simp [connect_route, hs]

/-- Witness for C5 shared route, at the query of stop x against itself. -/
theorem C5_witness :
    interNonempty (get_stop_route tShare "x") (get_stop_route tShare "x") = true ∧
    ((connect_route pickFirst tShare "x" "x" 0).1 =
        some [pickFirst (get_stop_route tShare "x") (get_stop_route tShare "x")] ∧
      pickFirst (get_stop_route tShare "x") (get_stop_route tShare "x") ∈
        get_stop_route tShare "x" ∧
      pickFirst (get_stop_route tShare "x") (get_stop_route tShare "x") ∈
        get_stop_route tShare "x") :=
  ⟨by decide, C5_shared_route pickFirst pickFirst_admissible tShare "x" "x" (by decide) 0⟩

/-- Claim C9 counterexample: the routes list returned by get_stop_route can
contain the same route more than once, because the source appends the long
name once per matching stop record; a route listing two distinct stop
records with the same display name yields a duplicate. -/
theorem C9_counterexample :
    get_stop_route tDupName "x" = ["R", "R"] ∧
    ¬ (get_stop_route tDupName "x").Nodup :=
  ⟨rfl, by decide⟩

/-- Claim C9 (amended): get_stop_route returns one entry per matching
(route row, stop record) pair.  Membership-wise it is exactly the routes
whose stop list contains a stop with the queried display name, and the
result is empty iff no route contains such a stop; but the entries are
duplicate-free only under the additional assumptions that route long names
are pairwise distinct and no route lists two stops with the queried name. -/
theorem C9_get_stop_route_spec (t : StopsRoutes) (n : String) :
    (∀ rn, rn ∈ get_stop_route t n ↔
      ∃ r, r ∈ t ∧ r.long_name = rn ∧ containsName r n = true) ∧
    (get_stop_route t n = [] ↔ ∀ r ∈ t, containsName r n = false) ∧
    ((t.map Route.long_name).Nodup →
      (∀ r ∈ t, (r.stops.filter (fun s => decide (s.name = n))).length ≤ 1) →
      (get_stop_route t n).Nodup) :=
  ⟨fun rn => mem_get_stop_route t n rn, get_stop_route_eq_nil t n,
    get_stop_route_nodup t n⟩

/-- Witness for C9, instantiated on the one-route table tR at stop a. -/
theorem C9_witness :
    (tR.map Route.long_name).Nodup ∧
    (∀ r ∈ tR, (r.stops.filter (fun s => decide (s.name = "a"))).length ≤ 1) ∧
    (get_stop_route tR "a").Nodup :=
  ⟨by decide, by decide,
    (C9_get_stop_route_spec tR "a").2.2 (by decide) (by decide)⟩

/-- Claim C10: on a non-empty table get_max_stops and get_min_stops return
a tuple of a route long name together with its stop count, attaining the
maximal respectively minimal count (first such row, as idxmax and idxmin
return the first extremal label); on the empty table both are in the error
branch (pandas raises on idxmax and idxmin of an empty series), which is
unreachable exactly under the non-empty precondition. -/
theorem C10_minmax_spec (t : StopsRoutes) :
    ((get_max_stops t).isSome ↔ t ≠ []) ∧
    ((get_min_stops t).isSome ↔ t ≠ []) ∧
    (∀ p, get_max_stops t = some p →
      ∃ r, r ∈ t ∧ p = (r.long_name, r.stops.length) ∧
        ∀ q ∈ t, q.stops.length ≤ r.stops.length) ∧
    (∀ p, get_min_stops t = some p →
      ∃ r, r ∈ t ∧ p = (r.long_name, r.stops.length) ∧
        ∀ q ∈ t, r.stops.length ≤ q.stops.length) := by
  refine ⟨?_, ?_, ?_, ?_⟩
  · constructor
    · intro h hnil
      subst hnil
      simp [get_max_stops, argmaxFirst] at h
    · intro h
      rcases argmaxFirst_isSome h with ⟨r, hr⟩
      simp [get_max_stops, hr]
  · constructor
    · intro h hnil
      subst hnil
      simp [get_min_stops, argminFirst] at h
    · intro h
      rcases argminFirst_isSome h with ⟨r, hr⟩
      simp [get_min_stops, hr]
  · intro p hp
    rcases Option.map_eq_some'.mp hp with ⟨r, hr, he⟩
    exact ⟨r, (argmaxFirst_spec t r hr).1, he.symm, (argmaxFirst_spec t r hr).2⟩
  · intro p hp
    rcases Option.map_eq_some'.mp hp with ⟨r, hr, he⟩
    exact ⟨r, (argminFirst_spec t r hr).1, he.symm, (argminFirst_spec t r hr).2⟩

/-- Witness for C10 on the test fixture shape: Route 1 has two stops,
Route 2 has three, so max is (Route 2, 3) and min is (Route 1, 2). -/
theorem C10_witness :
    get_max_stops tFix = some ("Route 2", 3) ∧
    get_min_stops tFix = some ("Route 1", 2) ∧
    (∃ r, r ∈ tFix ∧ ("Route 2", (3 : Nat)) = (r.long_name, r.stops.length) ∧
      ∀ q ∈ tFix, q.stops.length ≤ r.stops.length) :=
  ⟨rfl, rfl, (C10_minmax_spec tFix).2.2.1 _ rfl⟩

theorem connectLoop_nil (pick : List String → List String → String)
    (t : StopsRoutes) (routes_2 : List String) (fuel : Nat)
    (rail visited : List String) :
    connectLoop pick t routes_2 fuel rail [] visited = (some rail, []) := by
  cases fuel <;> rfl

theorem connectLoop_succ (pick : List String → List String → String)
    (t : StopsRoutes) (routes_2 : List String) (fuel : Nat)
    (rail : List String) (cur : String) (rest visited : List String) :
    connectLoop pick t routes_2 (fuel + 1) rail (cur :: rest) visited =
      (if interNonempty (get_stop_route t cur) routes_2 = true ∧
          pick (get_stop_route t cur) routes_2 ∉ rail then
        (some (rail ++ [pick (get_stop_route t cur) routes_2]), [cur])
      else
        ((connectLoop pick t routes_2 fuel
            ((get_connected_routes t).foldl
              (processRow pick (addVisited cur visited) (get_stop_route t cur))
              (rail, rest)).1
            ((get_connected_routes t).foldl
              (processRow pick (addVisited cur visited) (get_stop_route t cur))
              (rail, rest)).2
            (addVisited cur visited)).1,
          cur :: (connectLoop pick t routes_2 fuel
            ((get_connected_routes t).foldl
              (processRow pick (addVisited cur visited) (get_stop_route t cur))
              (rail, rest)).1
            ((get_connected_routes t).foldl
              (processRow pick (addVisited cur visited) (get_stop_route t cur))
              (rail, rest)).2
            (addVisited cur visited)).2)) := rfl

theorem processRow_rail_extends (pick : List String → List String → String)
    (visited cr : List String) (st : List String × List String) (row : ConnRow) :
    st.1 <+: (processRow pick visited cr st row).1 := by
  rw [processRow]
  split
  · dsimp only
    split
    · exact List.prefix_rfl
    · exact List.prefix_append _ _
  · exact List.prefix_rfl

theorem foldl_processRow_rail_extends (pick : List String → List String → String)
    (visited cr : List String) :
    ∀ (rows : List ConnRow) (st : List String × List String),
      st.1 <+: (rows.foldl (processRow pick visited cr) st).1 := by
  intro rows
  induction rows with
  | nil => intro st; exact List.prefix_rfl
  | cons row rows ih =>
      intro st
      rw [List.foldl_cons]
      exact (processRow_rail_extends pick visited cr st row).trans (ih _)

theorem foldl_processRow_queue (pick : List String → List String → String)
    (visited cr : List String) :
    ∀ (rows : List ConnRow) (st : List String × List String),
      ∃ app, (rows.foldl (processRow pick visited cr) st).2 = st.2 ++ app ∧
        ∀ x ∈ app, x ∈ rows.map ConnRow.stop ∧ x ∉ visited := by
  intro rows
  induction rows with
  | nil =>
      intro st
      exact ⟨[], by simp, by simp⟩
  | cons row rows ih =>
      intro st
      rw [List.foldl_cons]
      rcases ih (processRow pick visited cr st row) with ⟨app, happ, hprop⟩
      by_cases hc : interNonempty cr row.routes = true ∧ row.stop ∉ visited
      · have h2 : (processRow pick visited cr st row).2 = st.2 ++ [row.stop] := by
          rw [processRow, if_pos hc]
        rw [h2] at happ
        refine ⟨row.stop :: app, ?_, ?_⟩
        · rw [happ]
          simp
        · intro x hx
          rcases List.mem_cons.mp hx with rfl | hx2
          · exact ⟨by simp, hc.2⟩
          · rcases hprop x hx2 with ⟨h1, h3⟩
            exact ⟨by simp only [List.map_cons]; exact List.mem_cons_of_mem _ h1, h3⟩
      · have h2 : processRow pick visited cr st row = st := by
          rw [processRow, if_neg hc]
        rw [h2] at happ ⊢
        refine ⟨app, happ, ?_⟩
        intro x hx
        rcases hprop x hx with ⟨h1, h3⟩
        exact ⟨by simp only [List.map_cons]; exact List.mem_cons_of_mem _ h1, h3⟩

theorem foldl_processRow_rail_ne (pick : List String → List String → String)
    (visited cr : List String) :
    ∀ (rows : List ConnRow) (st : List String × List String),
      (∃ row ∈ rows, interNonempty cr row.routes = true ∧ row.stop ∉ visited) →
      (rows.foldl (processRow pick visited cr) st).1 ≠ [] := by
  intro rows
  induction rows with
  | nil =>
      rintro st ⟨row, h, _⟩
      cases h
  | cons row rows ih =>
      rintro st ⟨row0, hmem, hcond⟩
      rw [List.foldl_cons]
      rcases List.mem_cons.mp hmem with rfl | hmem2
      · have h1 : (processRow pick visited cr st row0).1 ≠ [] := by
          rw [processRow, if_pos hcond]
          dsimp only
          split
          · exact List.ne_nil_of_mem (by assumption)
          · simp
        have hpre := foldl_processRow_rail_extends pick visited cr rows
          (processRow pick visited cr st row0)
        intro hnil
        rw [hnil] at hpre
        exact h1 (List.prefix_nil.mp hpre)
      · exact ih _ ⟨row0, hmem2, hcond⟩

theorem connectLoop_rail_extends (pick : List String → List String → String)
    (t : StopsRoutes) (routes_2 : List String) :
    ∀ (fuel : Nat) (rail queue visited : List String) (out tr : List String),
      connectLoop pick t routes_2 fuel rail queue visited = (some out, tr) →
      rail <+: out := by
  intro fuel
  induction fuel with
  | zero =>
      intro rail queue visited out tr h
      rw [connectLoop] at h
      by_cases hq : queue.isEmpty
      · rw [if_pos hq] at h
        injection h with h1 h2
        injection h1 with h1
        exact h1 ▸ List.prefix_rfl
      · rw [if_neg hq] at h
        injection h with h1 h2
        cases h1
  | succ fuel ih =>
      intro rail queue visited out tr h
      cases queue with
      | nil =>
          rw [connectLoop_nil] at h
          injection h with h1 h2
          injection h1 with h1
          exact h1 ▸ List.prefix_rfl
      | cons cur rest =>
          rw [connectLoop_succ] at h
          by_cases hc : interNonempty (get_stop_route t cur) routes_2 = true ∧
              pick (get_stop_route t cur) routes_2 ∉ rail
          · rw [if_pos hc] at h
            injection h with h1 h2
            injection h1 with h1
            exact h1 ▸ List.prefix_append _ _
          · rw [if_neg hc] at h
            injection h with h1 h2
            have hpre := foldl_processRow_rail_extends pick (addVisited cur visited)
              (get_stop_route t cur) (get_connected_routes t) (rail, rest)
            exact hpre.trans
              (ih _ _ _ out _ (Prod.ext h1 rfl))

theorem connectLoop_mono (pick : List String → List String → String)
    (t : StopsRoutes) (routes_2 : List String) :
    ∀ (fuel fuel2 : Nat) (rail queue visited : List String) (out tr : List String),
      fuel ≤ fuel2 →
      connectLoop pick t routes_2 fuel rail queue visited = (some out, tr) →
      connectLoop pick t routes_2 fuel2 rail queue visited = (some out, tr) := by
  intro fuel
  induction fuel with
  | zero =>
      intro fuel2 rail queue visited out tr _ h
      rw [connectLoop] at h
      by_cases hq : queue.isEmpty
      · rw [if_pos hq] at h
        have hqq : queue = [] := by
          cases queue with
          | nil => rfl
          | cons a l => simp [List.isEmpty] at hq
        subst hqq
        rw [connectLoop_nil]
        exact h
      · rw [if_neg hq] at h
        injection h with h1 h2
        cases h1
  | succ fuel ih =>
      intro fuel2 rail queue visited out tr hle h
      cases queue with
      | nil =>
          rw [connectLoop_nil] at h ⊢
          exact h
      | cons cur rest =>
          cases fuel2 with
          | zero => omega
          | succ fuel2 =>
              have hle2 : fuel ≤ fuel2 := by omega
              rw [connectLoop_succ] at h ⊢
              by_cases hc : interNonempty (get_stop_route t cur) routes_2 = true ∧
                  pick (get_stop_route t cur) routes_2 ∉ rail
              · rw [if_pos hc] at h ⊢
                exact h
              · rw [if_neg hc] at h ⊢
                injection h with h1 h2
                have hres := ih fuel2 _ _ _ out _ hle2 (Prod.ext h1 rfl)
                rw [hres]
                exact Prod.ext rfl h2

/-- When the current routes do not intersect the destination routes, the
expansion step only appends routes of the current stop, so it preserves
the invariant that the accumulated rail_route is disjoint from the
destination route set. -/
theorem foldl_processRow_rail_disjoint (pick : List String → List String → String)
    (hp : Admissible pick) (visited cr routes_2 : List String)
    (hnc : interNonempty cr routes_2 = false) :
    ∀ (rows : List ConnRow) (st : List String × List String),
      (∀ r ∈ st.1, r ∉ routes_2) →
      ∀ r ∈ (rows.foldl (processRow pick visited cr) st).1, r ∉ routes_2 := by
  intro rows
  induction rows with
  | nil => intro st h; exact h
  | cons row rows ih =>
      intro st h
      rw [List.foldl_cons]
      apply ih
      intro r hr
      rw [processRow] at hr
      by_cases hc : interNonempty cr row.routes = true ∧ row.stop ∉ visited
      · rw [if_pos hc] at hr
        dsimp only at hr
        split at hr
        · exact h r hr
        · rcases List.mem_append.mp hr with h1 | h1
          · exact h r h1
          · have hrc : r ∈ cr := by
              have he : r = pick cr row.routes := List.mem_singleton.mp h1
              exact he ▸ (hp _ _ hc.1).1
            intro hr2
            have hcon : interNonempty cr routes_2 = true :=
              (interNonempty_iff _ _).mpr ⟨r, hrc, hr2⟩
            rw [hnc] at hcon
            cases hcon
      · rw [if_neg hc] at hr
        exact h r hr

/-- Claim C7 counterexample: the visited set does not prevent a stop from
being dequeued twice.  On the two-component table (R = [a, b, c],
S = [d, e]) the query connect_route a d enqueues c from both a and b
before c is first dequeued, and the dequeue trace is [a, b, c, c]: stop c
is dequeued twice, refuting the at-most-once claim. -/
theorem C7_counterexample :
    (connect_route pickFirst tTwoComp "a" "d" 9).2 = ["a", "b", "c", "c"] ∧
    (connect_route pickFirst tTwoComp "a" "d" 9).2.count "c" = 2 ∧
    (connect_route pickFirst tTwoComp "a" "d" 9).1 = some ["R"] :=
  ⟨rfl, by decide, rfl⟩

/-- Claim C7 (amended): the visited set prevents re-enqueueing stops that
have already been dequeued — every stop present in the frontier after an
expansion step either was already in the frontier or is not in the visited
set — but a stop can be enqueued several times before its first dequeue
and hence dequeued more than once, so the per-stop at-most-once bound of
the claim fails (see the counterexample) although the loop still
terminates. -/
theorem C7_frontier_unvisited (pick : List String → List String → String)
    (visited cr : List String) (rows : List ConnRow)
    (st : List String × List String) (x : String)
    (hx : x ∈ (rows.foldl (processRow pick visited cr) st).2) :
    x ∈ st.2 ∨ x ∉ visited := by
  rcases foldl_processRow_queue pick visited cr rows st with ⟨app, happ, hprop⟩
  rw [happ] at hx
  rcases List.mem_append.mp hx with h | h
  · exact Or.inl h
  · exact Or.inr (hprop x h).2

/-- Witness for C7 (amended): after the first expansion of the query on
table tR from stop a, stop b is in the frontier and is indeed unvisited. -/
theorem C7_witness :
    ("b" ∈ ((get_connected_routes tR).foldl
        (processRow pickFirst ["a"] ["R"]) ([], [])).2) ∧
    ("b" ∈ ([] : List String) ∨ "b" ∉ (["a"] : List String)) :=
  ⟨by decide, C7_frontier_unvisited pickFirst ["a"] ["R"]
    (get_connected_routes tR) ([], []) "b" (by decide)⟩

/-- Claim C8: whenever the routes of the currently dequeued stop intersect
the destination route set and the accumulated rail_route is disjoint from
the destination route set (as holds throughout the actual search, whose
rail_route only accumulates routes of stops whose destination check
failed, see foldl_processRow_rail_disjoint), the loop appends one route of
the intersection to rail_route and returns at that point. -/
theorem C8_dest_check_returns (pick : List String → List String → String)
    (hp : Admissible pick) (t : StopsRoutes) (routes_2 : List String)
    (fuel : Nat) (rail : List String) (cur : String) (rest visited : List String)
    (hdisj : ∀ r ∈ rail, r ∉ routes_2)
    (hcur : interNonempty (get_stop_route t cur) routes_2 = true) :
    connectLoop pick t routes_2 (fuel + 1) rail (cur :: rest) visited =
      (some (rail ++ [pick (get_stop_route t cur) routes_2]), [cur]) ∧
    pick (get_stop_route t cur) routes_2 ∈ get_stop_route t cur ∧
    pick (get_stop_route t cur) routes_2 ∈ routes_2 := by
  have hpk := hp _ _ hcur
  have hnr : pick (get_stop_route t cur) routes_2 ∉ rail :=
    fun hmem => hdisj _ hmem hpk.2
  exact ⟨by rw [connectLoop_succ, if_pos ⟨hcur, hnr⟩], hpk.1, hpk.2⟩

theorem stalePre_congr {t : StopsRoutes} {v1 v2 : List String}
    (h : ∀ x, staleB t v1 x = staleB t v2 x) :
    ∀ l, stalePre t v1 l = stalePre t v2 l := by
  intro l
  induction l with
  | nil => rfl
  | cons x xs ih =>
      by_cases hs : staleB t v2 x = true
      · rw [stalePre, stalePre, h x, if_pos hs, if_pos hs, ih]
      · rw [stalePre, stalePre, h x, if_neg hs, if_neg hs]

theorem stalePre_append_le (t : StopsRoutes) (v : List String) :
    ∀ l1 l2, (∀ x ∈ l2, staleB t v x = false) →
      stalePre t v (l1 ++ l2) ≤ stalePre t v l1 := by
  intro l1
  induction l1 with
  | nil =>
      intro l2 h
      cases l2 with
      | nil => simp [stalePre]
      | cons y ys =>
          have hy : staleB t v y = false := h y (List.mem_cons_self _ _)
          simp [stalePre, hy]
  | cons x xs ih =>
      intro l2 h
      rw [List.cons_append]
      by_cases hs : staleB t v x = true
      · rw [stalePre, stalePre, if_pos hs, if_pos hs]
        exact Nat.succ_le_succ (ih l2 h)
      · rw [stalePre, stalePre, if_neg hs, if_neg hs]

theorem staleB_not_visited_not_conn {t : StopsRoutes} {visited : List String}
    {cur : String} (hst : staleB t visited cur = true) (hcv : cur ∉ visited) :
    cur ∉ connStopNames t := by
  rw [staleB] at hst
  simp only [Bool.or_eq_true, decide_eq_true_eq] at hst
  rcases hst with h | h
  · exact absurd h hcv
  · exact h

theorem staleB_addVisited_of_stale (t : StopsRoutes) (visited : List String)
    (cur : String) (hst : staleB t visited cur = true) :
    ∀ x, staleB t (addVisited cur visited) x = staleB t visited x := by
  intro x
  by_cases hcv : cur ∈ visited
  · rw [addVisited, if_pos hcv]
  · have hcl : cur ∉ connStopNames t := staleB_not_visited_not_conn hst hcv
    rw [addVisited, if_neg hcv]
    by_cases hx : x = cur
    · subst hx
      rw [staleB, staleB]
      simp [hcv, hcl, List.mem_cons]
    · rw [staleB, staleB]
      simp [List.mem_cons, hx]

theorem length_filter_mono {α : Type} (p q : α → Bool)
    (himp : ∀ x, q x = true → p x = true) :
    ∀ l : List α, (l.filter q).length ≤ (l.filter p).length := by
  intro l
  induction l with
  | nil => simp
  | cons y ys ih =>
      rw [List.filter_cons, List.filter_cons]
      by_cases hq : q y = true
      · rw [if_pos hq, if_pos (himp y hq)]
        simpa using ih
      · rw [if_neg hq]
        cases hp : p y
        · rw [if_neg (by simp [hp])]
          exact ih
        · rw [if_pos (by simp)]
          exact le_trans ih (by simp)

theorem length_filter_strict {α : Type} (p q : α → Bool)
    (himp : ∀ x, q x = true → p x = true) {l : List α} {x : α}
    (hx : x ∈ l) (hpx : p x = true) (hqx : q x = false) :
    (l.filter q).length < (l.filter p).length := by
  induction l with
  | nil => cases hx
  | cons y ys ih =>
      rw [List.filter_cons, List.filter_cons]
      rcases List.mem_cons.mp hx with rfl | hmem
      · rw [if_pos hpx, if_neg (by simp [hqx])]
        simp only [List.length_cons]
        exact Nat.lt_succ_of_le (length_filter_mono p q himp ys)
      · by_cases hq : q y = true
        · rw [if_pos hq, if_pos (himp y hq)]
          simpa using ih hmem
        · rw [if_neg hq]
          cases hp : p y
          · rw [if_neg (by simp [hp])]
            exact ih hmem
          · rw [if_pos (by simp)]
            exact lt_of_lt_of_le (ih hmem) (by simp)

theorem unvisitedCount_addVisited_lt (t : StopsRoutes) (visited : List String)
    (cur : String) (hL : cur ∈ connStopNames t) (hv : cur ∉ visited) :
    unvisitedCount t (addVisited cur visited) < unvisitedCount t visited := by
  rw [addVisited, if_neg hv, unvisitedCount, unvisitedCount]
  apply length_filter_strict (fun s => decide (s ∉ visited))
    (fun s => decide (s ∉ cur :: visited))
  · intro x hx
    simp only [decide_eq_true_eq] at hx ⊢
    exact fun hmem => hx (List.mem_cons_of_mem _ hmem)
  · exact hL
  · simp [hv]
  · simp

theorem unvisitedCount_addVisited_of_stale (t : StopsRoutes)
    (visited : List String) (cur : String) (hst : staleB t visited cur = true) :
    unvisitedCount t (addVisited cur visited) = unvisitedCount t visited := by
  by_cases hcv : cur ∈ visited
  · rw [addVisited, if_pos hcv]
  · have hcl : cur ∉ connStopNames t := staleB_not_visited_not_conn hst hcv
    rw [addVisited, if_neg hcv, unvisitedCount, unvisitedCount]
    congr 1
    apply List.filter_congr
    intro x hxL
    have hxc : x ≠ cur := fun h => hcl (h ▸ hxL)
    simp [List.mem_cons, hxc]

theorem stalePre_step_lt (t : StopsRoutes) (visited : List String) (cur : String)
    (rest app : List String) (hst : staleB t visited cur = true)
    (happ : ∀ x ∈ app, x ∈ connStopNames t ∧ x ∉ addVisited cur visited) :
    stalePre t (addVisited cur visited) (rest ++ app) <
      stalePre t visited (cur :: rest) := by
  have h1 : stalePre t (addVisited cur visited) (rest ++ app) =
      stalePre t visited (rest ++ app) :=
    stalePre_congr (staleB_addVisited_of_stale t visited cur hst) (rest ++ app)
  have happ2 : ∀ x ∈ app, staleB t visited x = false := by
    intro x hx
    rcases happ x hx with ⟨hL, hnv⟩
    have hnv2 : x ∉ visited := by
      intro hmem
      apply hnv
      rw [addVisited]
      split
      · exact hmem
      · exact List.mem_cons_of_mem _ hmem
    rw [staleB]
    simp [hnv2, hL]
  have h2 : stalePre t visited (rest ++ app) ≤ stalePre t visited rest :=
    stalePre_append_le t visited rest app happ2
  have h3 : stalePre t visited (cur :: rest) = stalePre t visited rest + 1 := by
    rw [stalePre, if_pos hst]
  omega

/-- The search loop always converges: for every start state some finite
fuel suffices, and the result is then fuel-independent.  The proof is a
well-founded descent on the pair (number of not yet visited enqueueable
stops, length of the inert queue prefix). -/
theorem connectLoop_converges (pick : List String → List String → String)
    (t : StopsRoutes) (routes_2 : List String) :
    ∀ (u p : Nat) (rail queue visited : List String),
      unvisitedCount t visited = u → stalePre t visited queue = p →
      ∃ N out tr, ∀ f, N ≤ f →
        connectLoop pick t routes_2 f rail queue visited = (some out, tr) := by
  intro u
  induction u using Nat.strong_induction_on with
  | _ u ihu =>
    intro p
    induction p using Nat.strong_induction_on with
    | _ p ihp =>
      intro rail queue visited hu hp
      cases queue with
      | nil =>
          exact ⟨0, rail, [], fun f _ => connectLoop_nil pick t routes_2 f rail visited⟩
      | cons cur rest =>
          by_cases hret : interNonempty (get_stop_route t cur) routes_2 = true ∧
              pick (get_stop_route t cur) routes_2 ∉ rail
          · refine ⟨1, rail ++ [pick (get_stop_route t cur) routes_2], [cur], ?_⟩
            intro f hf
            cases f with
            | zero => omega
            | succ f => rw [connectLoop_succ, if_pos hret]
          · obtain ⟨app, happ, hprop⟩ := foldl_processRow_queue pick
              (addVisited cur visited) (get_stop_route t cur)
              (get_connected_routes t) (rail, rest)
            by_cases hfresh : cur ∈ connStopNames t ∧ cur ∉ visited
            · have hu2 : unvisitedCount t (addVisited cur visited) < u :=
                hu ▸ unvisitedCount_addVisited_lt t visited cur hfresh.1 hfresh.2

              obtain ⟨N, out, tr, hN⟩ := ihu _ hu2
                (stalePre t (addVisited cur visited)
                  (((get_connected_routes t).foldl
                    (processRow pick (addVisited cur visited) (get_stop_route t cur))
                    (rail, rest)).2))
                (((get_connected_routes t).foldl
                  (processRow pick (addVisited cur visited) (get_stop_route t cur))
                  (rail, rest)).1)
                (((get_connected_routes t).foldl
                  (processRow pick (addVisited cur visited) (get_stop_route t cur))
                  (rail, rest)).2)
                (addVisited cur visited) rfl rfl
              refine ⟨N + 1, out, cur :: tr, ?_⟩
              intro f hf
              cases f with
              | zero => omega
              | succ f =>
                  rw [connectLoop_succ, if_neg hret]
                  rw [hN f (by omega)]
            · have hst2 : staleB t visited cur = true := by
                rw [staleB]
                rcases not_and_or.mp hfresh with h | h
                · simp [h]
                · simp only [not_not] at h
                  simp [h]
              have hu2 : unvisitedCount t (addVisited cur visited) = u :=
                hu ▸ unvisitedCount_addVisited_of_stale t visited cur hst2
              have hp2 : stalePre t (addVisited cur visited)
                  (((get_connected_routes t).foldl
                    (processRow pick (addVisited cur visited) (get_stop_route t cur))
                    (rail, rest)).2) < p := by
                rw [← hp, happ]
                exact stalePre_step_lt t visited cur rest app hst2 hprop
              obtain ⟨N, out, tr, hN⟩ := ihp _ hp2
                (((get_connected_routes t).foldl
                  (processRow pick (addVisited cur visited) (get_stop_route t cur))
                  (rail, rest)).1)
                (((get_connected_routes t).foldl
                  (processRow pick (addVisited cur visited) (get_stop_route t cur))
                  (rail, rest)).2)
                (addVisited cur visited) hu2 rfl
              refine ⟨N + 1, out, cur :: tr, ?_⟩
              intro f hf
              cases f with
              | zero => omega
              | succ f =>
                  rw [connectLoop_succ, if_neg hret]
                  rw [hN f (by omega)]

/-- Claim C4: connect_route is total.  For every pick, table and pair of
stop names — including stops on disjoint, mutually unreachable
components — some finite fuel suffices for the search loop to exit, and
from that point on the result (a route list, possibly empty or partial,
plus the dequeue trace) is fixed: the source while loop terminates rather
than looping forever. -/
theorem C4_connect_route_total (pick : List String → List String → String)
    (t : StopsRoutes) (s1 s2 : String) :
    ∃ N out tr, ∀ f, N ≤ f →
      connect_route pick t s1 s2 f = (some out, tr) := by
  by_cases hs : interNonempty (get_stop_route t s1) (get_stop_route t s2) = true
  · exact ⟨0, [pick (get_stop_route t s1) (get_stop_route t s2)], [],
      fun f _ => by simp [connect_route, hs]⟩
  · obtain ⟨N, out, tr, hN⟩ := connectLoop_converges pick t (get_stop_route t s2)
      (unvisitedCount t []) (stalePre t [] [s1]) [] [s1] [] rfl rfl
    refine ⟨N, out, tr, ?_⟩
    intro f hf
    simp only [connect_route]
    rw [if_neg hs]
    exact hN f hf

/-- Witness for C4: instantiation on the two-component table with the
origin and destination in different components. -/
theorem C4_witness :
    ∃ N out tr, ∀ f, N ≤ f →
      connect_route pickFirst tTwoComp "a" "d" f = (some out, tr) :=
  C4_connect_route_total pickFirst tTwoComp "a" "d"

/-- Claim C6 counterexample: two runs of the same query against the same
table, differing only in the hash-seed dependent set iteration order
(both orders are admissible behaviours of list(set inter)[0]), return
different route sequences, so run-to-run determinism fails. -/
theorem C6_counterexample :
    Admissible pickFirst ∧ Admissible pickLast ∧
    (connect_route pickFirst tShare "x" "y" 1).1 = some ["A"] ∧
    (connect_route pickLast tShare "x" "y" 1).1 = some ["B"] ∧
    (some ["A"] : Option (List String)) ≠ some ["B"] :=
  ⟨pickFirst_admissible, pickLast_admissible, rfl, rfl, by decide⟩

/-- Claim C6 (amended): for a FIXED set iteration order (fixed hash seed,
as within one process), connect_route is deterministic: any two
evaluations of the same query on the same table that exit the loop
return the same route sequence, independently of the fuel granted. -/
theorem C6_deterministic_fixed_order (pick : List String → List String → String)
    (t : StopsRoutes) (s1 s2 : String) (f1 f2 : Nat) {r1 r2 : List String}
    (h1 : (connect_route pick t s1 s2 f1).1 = some r1)
    (h2 : (connect_route pick t s1 s2 f2).1 = some r2) : r1 = r2 := by
  by_cases hs : interNonempty (get_stop_route t s1) (get_stop_route t s2) = true
  · simp only [connect_route] at h1 h2
    rw [if_pos hs] at h1 h2
    injection h1 with h1
    injection h2 with h2
    rw [← h1, ← h2]
  · simp only [connect_route] at h1 h2
    rw [if_neg hs] at h1 h2
    rcases Nat.le_total f1 f2 with hle | hle
    · have hmono := connectLoop_mono pick t (get_stop_route t s2) f1 f2 [] [s1] []
        r1 _ hle (Prod.ext h1 rfl)
      rw [hmono] at h2
      injection h2
    · have hmono := connectLoop_mono pick t (get_stop_route t s2) f2 f1 [] [s1] []
        r2 _ hle (Prod.ext h2 rfl)
      rw [hmono] at h1
      injection h1 with h1
      exact h1.symm

/-- Witness for C6 (amended): two evaluations of the same query with
different fuel agree. -/
theorem C6_witness :
    (connect_route pickFirst tShare "x" "y" 3).1 = some ["A"] ∧
    (connect_route pickFirst tShare "x" "y" 7).1 = some ["A"] ∧
    (["A"] : List String) = ["A"] :=
  ⟨rfl, rfl, C6_deterministic_fixed_order pickFirst tShare "x" "y" 3 7 rfl rfl⟩

/-- Along a transfer chain starting from a route serving stop s1, either
the two stops already share a route (by name), or some row of
get_connected_routes has a stop other than s1 whose routes meet the routes
of s1: the seed of the reachability argument for C1. -/
theorem chain_gives_row (t : StopsRoutes) (s1 s2 : String) :
    ∀ r : Route, RouteChain t s2 r → r.long_name ∈ get_stop_route t s1 →
      (∃ x, x ∈ get_stop_route t s1 ∧ x ∈ get_stop_route t s2) ∨
      (∃ row ∈ get_connected_routes t,
        interNonempty (get_stop_route t s1) row.routes = true ∧ row.stop ≠ s1) := by
  intro r hchain
  induction hchain with
  | base r hr hd =>
      intro hln
      exact Or.inl ⟨r.long_name, hln, long_name_mem_get_stop_route hr hd⟩
  | step r r2 hr hr2 hshare next ih =>
      intro hln
      rcases hshare with ⟨w, hwr, hwr2⟩
      by_cases hn : w.name = s1
      · exact ih (long_name_mem_get_stop_route hr2
          ((containsName_iff _ _).mpr ⟨w, hwr2, hn⟩))
      · right
        refine ⟨⟨w.name,
          (t.filter (fun route => decide (w ∈ route.stops))).map Route.long_name⟩,
          connRow_of_stop (mem_explodedStops hr hwr), ?_, hn⟩
        exact (interNonempty_iff _ _).mpr
          ⟨r.long_name, hln, long_name_mem_rowRoutes hr hwr⟩

theorem get_stop_route_subset_names (t : StopsRoutes) (n : String) :
    ∀ x ∈ get_stop_route t n, x ∈ t.map Route.long_name := by
  intro x hx
  rcases (mem_get_stop_route t n x).mp hx with ⟨r, hr, he, _⟩
  exact List.mem_map.mpr ⟨r, hr, he⟩

theorem foldl_processRow_rail_sub (pick : List String → List String → String)
    (hp : Admissible pick) (visited cr : List String) :
    ∀ (rows : List ConnRow) (st : List String × List String) (r : String),
      r ∈ (rows.foldl (processRow pick visited cr) st).1 → r ∈ st.1 ∨ r ∈ cr := by
  intro rows
  induction rows with
  | nil => intro st r hr; exact Or.inl hr
  | cons row rows ih =>
      intro st r hr
      rw [List.foldl_cons] at hr
      rcases ih _ r hr with h | h
      · rw [processRow] at h
        by_cases hc : interNonempty cr row.routes = true ∧ row.stop ∉ visited
        · rw [if_pos hc] at h
          dsimp only at h
          split at h
          · exact Or.inl h
          · rcases List.mem_append.mp h with h1 | h1
            · exact Or.inl h1
            · have he : r = pick cr row.routes := List.mem_singleton.mp h1
              exact Or.inr (he ▸ (hp _ _ hc.1).1)
        · rw [if_neg hc] at h
          exact Or.inl h
      · exact Or.inr h

theorem connectLoop_rail_names (pick : List String → List String → String)
    (hp : Admissible pick) (t : StopsRoutes) (routes_2 : List String) :
    ∀ (fuel : Nat) (rail queue visited : List String) (out tr : List String),
      connectLoop pick t routes_2 fuel rail queue visited = (some out, tr) →
      (∀ r ∈ rail, r ∈ t.map Route.long_name) →
      ∀ r ∈ out, r ∈ t.map Route.long_name := by
  intro fuel
  induction fuel with
  | zero =>
      intro rail queue visited out tr h hrail
      rw [connectLoop] at h
      by_cases hq : queue.isEmpty
      · rw [if_pos hq] at h
        injection h with h1 h2
        injection h1 with h1
        exact h1 ▸ hrail
      · rw [if_neg hq] at h
        injection h with h1 h2
        cases h1
  | succ fuel ih =>
      intro rail queue visited out tr h hrail
      cases queue with
      | nil =>
          rw [connectLoop_nil] at h
          injection h with h1 h2
          injection h1 with h1
          exact h1 ▸ hrail
      | cons cur rest =>
          rw [connectLoop_succ] at h
          by_cases hc : interNonempty (get_stop_route t cur) routes_2 = true ∧
              pick (get_stop_route t cur) routes_2 ∉ rail
          · rw [if_pos hc] at h
            injection h with h1 h2
            injection h1 with h1
            subst h1
            intro r hr
            rcases List.mem_append.mp hr with h3 | h3
            · exact hrail r h3
            · have he : r = pick (get_stop_route t cur) routes_2 :=
                List.mem_singleton.mp h3
              exact get_stop_route_subset_names t cur _ (he ▸ (hp _ _ hc.1).1)
          · rw [if_neg hc] at h
            injection h with h1 h2
            refine ih _ _ _ out _ (Prod.ext h1 rfl) ?_
            intro r hr
            rcases foldl_processRow_rail_sub pick hp (addVisited cur visited)
              (get_stop_route t cur) (get_connected_routes t) (rail, rest) r hr with
              h3 | h3
            · exact hrail r h3
            · exact get_stop_route_subset_names t cur _ h3

/-- Claim C1: if both stop names lie on routes of the table and a sequence
of route transfers connects them in the route/stop graph, connect_route
terminates (some fuel suffices and the result is then fixed) and the
returned sequence is a non-empty list of route names of the table. -/
theorem C1_reachability (pick : List String → List String → String)
    (hp : Admissible pick) (t : StopsRoutes) (s1 s2 : String)
    (hpath : PathExists t s1 s2) :
    ∃ N out tr, out ≠ [] ∧ (∀ x ∈ out, x ∈ t.map Route.long_name) ∧
      ∀ f, N ≤ f → connect_route pick t s1 s2 f = (some out, tr) := by
  by_cases hs : interNonempty (get_stop_route t s1) (get_stop_route t s2) = true
  · refine ⟨0, [pick (get_stop_route t s1) (get_stop_route t s2)], [], by simp, ?_, ?_⟩
    · intro x hx
      have he : x = pick (get_stop_route t s1) (get_stop_route t s2) :=
        List.mem_singleton.mp hx
      exact get_stop_route_subset_names t s1 _ (he ▸ (hp _ _ hs).1)
    · intro f _
      simp [connect_route, hs]
  · obtain ⟨r0, hr0, hc0, hchain⟩ := hpath
    have hln0 : r0.long_name ∈ get_stop_route t s1 :=
      long_name_mem_get_stop_route hr0 hc0
    rcases chain_gives_row t s1 s2 r0 hchain hln0 with hint | ⟨row, hrow, hint, hne⟩
    · exact absurd ((interNonempty_iff _ _).mpr hint) hs
    · obtain ⟨N, out, tr, hN⟩ := connectLoop_converges pick t (get_stop_route t s2)
        (unvisitedCount t []) (stalePre t [] [s1]) [] [s1] [] rfl rfl
      have hstep := hN (N + 1) (by omega)
      rw [connectLoop_succ] at hstep
      have hcond : ¬(interNonempty (get_stop_route t s1) (get_stop_route t s2) = true ∧
          pick (get_stop_route t s1) (get_stop_route t s2) ∉ ([] : List String)) := by
        intro hcc
        exact hs hcc.1
      rw [if_neg hcond] at hstep
      injection hstep with h1 h2
      have hrail : ((get_connected_routes t).foldl
          (processRow pick (addVisited s1 []) (get_stop_route t s1)) ([], [])).1 ≠ [] := by
        apply foldl_processRow_rail_ne
        refine ⟨row, hrow, hint, ?_⟩
        intro hmem
        rw [addVisited] at hmem
        simp at hmem
        exact hne hmem
      have hpre := connectLoop_rail_extends pick t (get_stop_route t s2) N _ _ _
        out _ (Prod.ext h1 rfl)
      refine ⟨N, out, tr, ?_, ?_, ?_⟩
      · intro hnil
        rw [hnil] at hpre
        exact hrail (List.prefix_nil.mp hpre)
      · refine connectLoop_rail_names pick hp t (get_stop_route t s2) N _ _ _
          out _ (Prod.ext h1 rfl) ?_
        intro r hr
        rcases foldl_processRow_rail_sub pick hp (addVisited s1 [])
          (get_stop_route t s1) (get_connected_routes t) ([], []) r hr with h3 | h3
        · cases h3
        · exact get_stop_route_subset_names t s1 _ h3
      · intro f hf
        simp only [connect_route]
        rw [if_neg hs]
        exact hN f hf

/-- Witness for C1: the chain table, where route A serves stop a, route B
serves stop b, and the two routes share the stop record p. -/
theorem C1_witness :
    Admissible pickFirst ∧ PathExists tChain "a" "b" ∧
    (∃ N out tr, out ≠ [] ∧ (∀ x ∈ out, x ∈ tChain.map Route.long_name) ∧
      ∀ f, N ≤ f → connect_route pickFirst tChain "a" "b" f = (some out, tr)) := by
  have hpath : PathExists tChain "a" "b" :=
    ⟨⟨"A", [stA, stP]⟩, by decide, by decide,
      RouteChain.step _ ⟨"B", [stP, stB]⟩ (by decide) (by decide)
        ⟨stP, by decide, by decide⟩
        (RouteChain.base _ (by decide) (by decide))⟩
  exact ⟨pickFirst_admissible, hpath,
    C1_reachability pickFirst pickFirst_admissible tChain "a" "b" hpath⟩

/-- Witness for C8 on the chain table, dequeuing the transfer stop p with
destination route set [B]. -/
theorem C8_witness :
    (∀ r ∈ ([] : List String), r ∉ (["B"] : List String)) ∧
    interNonempty (get_stop_route tChain "p") ["B"] = true ∧
    (connectLoop pickFirst tChain ["B"] 1 [] ["p"] [] =
      (some ([] ++ [pickFirst (get_stop_route tChain "p") ["B"]]), ["p"]) ∧
      pickFirst (get_stop_route tChain "p") ["B"] ∈ get_stop_route tChain "p" ∧
      pickFirst (get_stop_route tChain "p") ["B"] ∈ ["B"]) :=
  ⟨by simp, by decide,
    C8_dest_check_returns pickFirst pickFirst_admissible tChain ["B"] 0 [] "p" [] []
      (by simp) (by decide)⟩

end MbtaRoutes
